import Mathlib

/-!
Verification development for the cursor_mapper repository (src/main.cpp).

The program tracks the monitor topology of a Windows machine, watches raw
mouse-move events, detects when the cursor's movement segment exits the
rectangle of the monitor it was on, and relocates the cursor to the
proportionally corresponding position on the adjacent monitor.

This file gives a shallow embedding of the algorithmic core:
  * `buildTopoSignature` / `refreshMonitors`  — topology change detection,
  * `FindExitEdge`                            — segment/rectangle exit-edge search,
  * `RemapCursor`                             — proportional edge remapping,
  * `mouseHookProc`                           — the stateful hook controller.

C++ `double` arithmetic is modelled with exact rationals (`ℚ`); `LONG`
coordinates are modelled with `ℤ`; Windows handles with `ℕ`; the narrow
topology-signature string with Lean `String`.
-/

/- Batteries marks the `Rat` field operations `@[irreducible]`, which stops
`decide` from evaluating the definitions below on concrete inputs.  Restore
the default reducibility so concrete witnesses can be checked by `decide`
(this does not affect kernel soundness, only unfolding during elaboration). -/
set_option allowUnsafeReducibility true
attribute [semireducible] Rat.mul Rat.add Rat.sub Rat.inv Rat.div Rat.ofScientific

/-- A point (`POINT` in the source): virtual-screen coordinates. -/
structure Pt where
  x : ℤ
  y : ℤ
  deriving DecidableEq, Repr

/-- A rectangle (`RECT`): half-open `[left, right) × [top, bottom)` for pixel
containment, although the intersection tests below use closed intervals. -/
structure Rect where
  left : ℤ
  top : ℤ
  right : ℤ
  bottom : ℤ
  deriving DecidableEq, Repr

/-- The `Edge` enumeration of the source (`None, Left, Right, Top, Bottom`). -/
inductive Edge where
  | none
  | left
  | right
  | top
  | bottom
  deriving DecidableEq, Repr

/-- `HitResult` of the source: the exit edge, the segment parameter `t`, and
the intersection coordinate along the edge. -/
structure HitResult where
  edge : Edge
  t : ℚ
  coord : ℚ
  deriving DecidableEq, Repr

/-- The `1e-9` tolerance used by `FindExitEdge`. -/
def eps : ℚ := 1 / 1000000000

/-- The sentinel `best` value `{Edge::None, 2.0, 0.0}` of `FindExitEdge`. -/
def noHit : HitResult := ⟨Edge.none, 2, 0⟩

/-- Whether an edge is a Left/Right (horizontal-motion) boundary, the
`horiz` flag of the tie-break in `tryEdge`. -/
def isHoriz : Edge → Bool
  | Edge.left => true
  | Edge.right => true
  | _ => false

/-- The `outward` test of `tryEdge`: a `t ≈ 0` candidate is only accepted if
the direction of travel points out of the rectangle through that boundary. -/
def outwardB (dx dy : ℚ) : Edge → Bool
  | Edge.left => decide (dx < 0)
  | Edge.right => decide (0 < dx)
  | Edge.top => decide (dy < 0)
  | Edge.bottom => decide (0 < dy)
  | Edge.none => false

/-- The `tryEdge` lambda of `FindExitEdge`: screens a candidate crossing
`c` against the current `best` and returns the updated best value.
Mirrors the source exactly:
  * reject if `t < -1e-9 || t > 1.0`;
  * if `t < 1e-9`, reject unless moving outward through that boundary;
  * strictly earlier (by more than the tolerance): take the candidate;
  * a tie within the tolerance: a horizontal boundary wins if
    `|dx| >= |dy|`, a vertical one only if `|dy| > |dx|`. -/
def tryEdge (dx dy : ℚ) (c : HitResult) (best : HitResult) : HitResult :=
  if c.t < -eps ∨ 1 < c.t then best
  else if c.t < eps ∧ outwardB dx dy c.edge = false then best
  else if c.t < best.t - eps then c
  else if |c.t - best.t| < eps then
    if isHoriz c.edge then (if |dy| ≤ |dx| then c else best)
    else (if |dx| < |dy| then c else best)
  else best

/-- Horizontal delta of the movement segment, as the source's `double dx`. -/
def dxQ (p0 p1 : Pt) : ℚ := (p1.x : ℚ) - (p0.x : ℚ)

/-- Vertical delta of the movement segment, as the source's `double dy`. -/
def dyQ (p0 p1 : Pt) : ℚ := (p1.y : ℚ) - (p0.y : ℚ)

/-- The right-edge candidate of `FindExitEdge`: present when `dx != 0` and
the crossing ordinate lies within `[rc.top, rc.bottom]` (closed). -/
def rightCand (p0 p1 : Pt) (rc : Rect) : Option HitResult :=
  let dx := dxQ p0 p1
  let dy := dyQ p0 p1
  if dx = 0 then Option.none
  else
    let t := ((rc.right : ℚ) - (p0.x : ℚ)) / dx
    let y := (p0.y : ℚ) + t * dy
    if (rc.top : ℚ) ≤ y ∧ y ≤ (rc.bottom : ℚ) then Option.some ⟨Edge.right, t, y⟩
    else Option.none

/-- The left-edge candidate of `FindExitEdge`. -/
def leftCand (p0 p1 : Pt) (rc : Rect) : Option HitResult :=
  let dx := dxQ p0 p1
  let dy := dyQ p0 p1
  if dx = 0 then Option.none
  else
    let t := ((rc.left : ℚ) - (p0.x : ℚ)) / dx
    let y := (p0.y : ℚ) + t * dy
    if (rc.top : ℚ) ≤ y ∧ y ≤ (rc.bottom : ℚ) then Option.some ⟨Edge.left, t, y⟩
    else Option.none

/-- The bottom-edge candidate of `FindExitEdge`. -/
def bottomCand (p0 p1 : Pt) (rc : Rect) : Option HitResult :=
  let dx := dxQ p0 p1
  let dy := dyQ p0 p1
  if dy = 0 then Option.none
  else
    let t := ((rc.bottom : ℚ) - (p0.y : ℚ)) / dy
    let x := (p0.x : ℚ) + t * dx
    if (rc.left : ℚ) ≤ x ∧ x ≤ (rc.right : ℚ) then Option.some ⟨Edge.bottom, t, x⟩
    else Option.none

/-- The top-edge candidate of `FindExitEdge`. -/
def topCand (p0 p1 : Pt) (rc : Rect) : Option HitResult :=
  let dx := dxQ p0 p1
  let dy := dyQ p0 p1
  if dy = 0 then Option.none
  else
    let t := ((rc.top : ℚ) - (p0.y : ℚ)) / dy
    let x := (p0.x : ℚ) + t * dx
    if (rc.left : ℚ) ≤ x ∧ x ≤ (rc.right : ℚ) then Option.some ⟨Edge.top, t, x⟩
    else Option.none

/-- The boundary candidates of `FindExitEdge`, in the order the source
evaluates them: Right, Left, Bottom, Top.  A candidate is absent when the
segment has zero extent along its axis (degenerate denominator) or the
crossing coordinate along the perpendicular axis is out of range. -/
def candList (p0 p1 : Pt) (rc : Rect) : List HitResult :=
  (rightCand p0 p1 rc).toList ++ (leftCand p0 p1 rc).toList ++
    (bottomCand p0 p1 rc).toList ++ (topCand p0 p1 rc).toList

/-- `FindExitEdge` of the source: fold `tryEdge` over the four boundary
candidates, starting from the `noHit` sentinel. -/
def FindExitEdge (p0 p1 : Pt) (rc : Rect) : HitResult :=
  (candList p0 p1 rc).foldl (fun b c => tryEdge (dxQ p0 p1) (dyQ p0 p1) c b) noHit

/-- Acceptance screen of `tryEdge`, as a Boolean: `t` within `[-1e-9, 1]`,
and if `t < 1e-9` the motion must point outward through the boundary. -/
def acceptOK (dx dy : ℚ) (c : HitResult) : Bool :=
  decide (-eps ≤ c.t) && decide (c.t ≤ 1) && (decide (eps ≤ c.t) || outwardB dx dy c.edge)

/-- The boundary candidates that pass `tryEdge`'s acceptance screen. -/
def acceptedCands (p0 p1 : Pt) (rc : Rect) : List HitResult :=
  (candList p0 p1 rc).filter (acceptOK (dxQ p0 p1) (dyQ p0 p1))

/-- `std::clamp` on integers (the source always calls it with `lo ≤ hi`). -/
def clampZ (v lo hi : ℤ) : ℤ := if v < lo then lo else if hi < v then hi else v

/-- `std::clamp` on rationals, used for the `pct ∈ [0,1]` clamp. -/
def clampQ (v lo hi : ℚ) : ℚ := if v < lo then lo else if hi < v then hi else v

/-- `std::lround`: round to the nearest integer, halves away from zero. -/
def lroundQ (q : ℚ) : ℤ := if q < 0 then -(⌊-q + 1 / 2⌋) else ⌊q + 1 / 2⌋

/-- `RemapCursor` of the source.  For a Left/Right exit the vertical extents
are the mapping axis, otherwise the horizontal extents.  The overlap of the
two rectangles along that axis is only an adjacency sanity check; the
percentage is taken along the full source extent and mapped onto the full
destination extent, rounded, then clamped one pixel inside the destination
extent; the crossed-axis coordinate is placed one pixel inside the entered
edge of the destination.  Returns `none` where the source returns `false`. -/
def RemapCursor (src dst : Rect) (edge : Edge) (hitCoord : ℚ) : Option Pt :=
  let ps : ℤ × ℤ × ℤ × ℤ × ℤ × ℤ :=
    if edge = Edge.left ∨ edge = Edge.right then
      (max src.top dst.top, min src.bottom dst.bottom, src.top, src.bottom, dst.top, dst.bottom)
    else
      (max src.left dst.left, min src.right dst.right, src.left, src.right, dst.left, dst.right)
  let ovStart : ℤ := ps.1
  let ovEnd : ℤ := ps.2.1
  let srcStart : ℤ := ps.2.2.1
  let srcEnd : ℤ := ps.2.2.2.1
  let dstStart : ℤ := ps.2.2.2.2.1
  let dstEnd : ℤ := ps.2.2.2.2.2
  let srcLen : ℤ := srcEnd - srcStart
  let dstLen : ℤ := dstEnd - dstStart
  if ovEnd - ovStart ≤ 0 ∨ srcLen ≤ 0 ∨ dstLen ≤ 0 then Option.none
  else
    let pct : ℚ := clampQ ((hitCoord - (srcStart : ℚ)) / (srcLen : ℚ)) 0 1
    let mapped : ℤ := clampZ (dstStart + lroundQ (pct * (dstLen : ℚ))) (dstStart + 1) (dstEnd - 2)
    match edge with
    | Edge.right => Option.some ⟨dst.left + 1, mapped⟩
    | Edge.left => Option.some ⟨dst.right - 2, mapped⟩
    | Edge.bottom => Option.some ⟨mapped, dst.top + 1⟩
    | Edge.top => Option.some ⟨mapped, dst.bottom - 2⟩
    | Edge.none => Option.none

/-- A monitor record (`MonitorInfo`): opaque OS handle, rectangle, primary
flag, and the device name as the `CCHDEVICENAME` array of wide characters
(each a code unit in `[0, 2^16)`; the array is compared in full by
`wmemcmp`, and only the prefix before the first NUL is emitted into the
signature). -/
structure MonitorInfo where
  handle : ℕ
  rc : Rect
  primary : Bool
  device : List ℕ
  deriving DecidableEq, Repr

/-- `wmemcmp` over the fixed-size device-name arrays: lexicographic
three-way comparison of the wide-character code units. -/
def wcmp : List ℕ → List ℕ → Ordering
  | [], [] => Ordering.eq
  | [], _ :: _ => Ordering.lt
  | _ :: _, [] => Ordering.gt
  | a :: as, b :: bs =>
    if a < b then Ordering.lt else if b < a then Ordering.gt else wcmp as bs

/-- The sort comparator of `BuildTopoSignature`: device name (via
`wmemcmp`), then `rc.left`, then `rc.top`. -/
def monLt (a b : MonitorInfo) : Bool :=
  match wcmp a.device b.device with
  | Ordering.lt => true
  | Ordering.gt => false
  | Ordering.eq =>
    if a.rc.left ≠ b.rc.left then decide (a.rc.left < b.rc.left)
    else decide (a.rc.top < b.rc.top)

/-- Insert a record into an already-sorted list, keeping it before any
record it compares equivalent to (stable insertion, the deterministic model
of the source's `std::sort` call). -/
def insertMon (m : MonitorInfo) : List MonitorInfo → List MonitorInfo
  | [] => [m]
  | x :: xs => if monLt x m then x :: insertMon m xs else m :: x :: xs

/-- Stable insertion sort by `monLt`, the model of the `std::sort` call in
`BuildTopoSignature`. -/
def sortMons : List MonitorInfo → List MonitorInfo
  | [] => []
  | m :: ms => insertMon m (sortMons ms)

/-- The narrow rendering of a device name used inside the signature: each
wide character up to the first NUL is truncated to a byte
(`static_cast<char>`), i.e. taken mod 256. -/
def deviceNarrow (d : List ℕ) : String :=
  String.mk ((d.takeWhile (fun c => c ≠ 0)).map (fun c => Char.ofNat (c % 256)))

/-- The per-record signature fragment:
`"%ld,%ld,%ld,%ld,%d,"` followed by the narrowed device name and `';'`. -/
def recordSig (m : MonitorInfo) : String :=
  toString m.rc.left ++ "," ++ toString m.rc.top ++ "," ++ toString m.rc.right ++ "," ++
    toString m.rc.bottom ++ "," ++ (if m.primary then "1" else "0") ++ "," ++
    deviceNarrow m.device ++ ";"

/-- Signature of an already-sorted record list: concatenation of the
per-record fragments. -/
def sigOfSorted (mons : List MonitorInfo) : String :=
  mons.foldl (fun s m => s ++ recordSig m) ""

/-- `BuildTopoSignature`: sort the records with the canonical comparator,
then concatenate the per-record fragments.  (In the source the sort happens
in place on the vector that is subsequently stored.) -/
def buildTopoSignature (mons : List MonitorInfo) : String :=
  sigOfSorted (sortMons mons)

/-- `LONG_MIN`, the sentinel coordinate meaning "no last position". -/
def LONG_MIN : ℤ := -2147483648

/-- The `{LONG_MIN, LONG_MIN}` sentinel value of `g_lastPos`. -/
def ptUnknown : Pt := ⟨LONG_MIN, LONG_MIN⟩

/-- The global mutable state of the program: `g_monitors`,
`g_topoSignature`, `g_lastMonitor` (`none` = `nullptr`), `g_lastPos`, and
`g_suppressing`. -/
structure GState where
  monitors : List MonitorInfo
  topoSignature : String
  lastMonitor : Option ℕ
  lastPos : Pt
  suppressing : Bool
  deriving DecidableEq, Repr

/-- `RefreshMonitors`, as a function of the freshly enumerated monitor list:
build the fresh signature (sorting the fresh list), compare with the held
signature; if identical return unchanged, otherwise store the sorted fresh
list and its signature and reset the tracking state. -/
def refreshMonitors (fresh : List MonitorInfo) (st : GState) : GState :=
  let sorted := sortMons fresh
  let sig := sigOfSorted sorted
  if sig = st.topoSignature then st
  else
    { st with
      monitors := sorted
      topoSignature := sig
      lastMonitor := Option.none
      lastPos := ptUnknown }

/-- `FindMonitor`: linear search of the held snapshot by handle. -/
def findMonitor (mons : List MonitorInfo) (h : ℕ) : Option MonitorInfo :=
  mons.find? (fun m => m.handle = h)

/-- The OS facilities the hook consumes: `MonitorFromPoint` (with
`MONITOR_DEFAULTTONULL`) and the success of `SetCursorPos`. -/
structure HookEnv where
  monitorFromPoint : Pt → Option ℕ
  setCursorOk : Bool

/-- A raw mouse-move event: position and the `LLMHF_INJECTED` flag. -/
structure MouseEvent where
  pt : Pt
  injected : Bool

/-- The `WM_MOUSEMOVE` action of `MouseHookProc`: returns the updated global
state together with the decision (`true` = suppress the original event,
`false` = pass it through unmodified).  Injected events and events arriving
while `g_suppressing` is set are passed through untouched; otherwise the
crossing logic runs, and on every fall-through path the `done:` block
records the current monitor and position. -/
def mouseHookProc (env : HookEnv) (st : GState) (ev : MouseEvent) : GState × Bool :=
  if ev.injected then (st, false)
  else if st.suppressing then (st, false)
  else
    match env.monitorFromPoint ev.pt with
    | Option.none => (st, false)
    | Option.some cur =>
      let done : GState × Bool :=
        ({ st with lastMonitor := Option.some cur, lastPos := ev.pt }, false)
      match st.lastMonitor with
      | Option.none => done
      | Option.some lm =>
        if cur ≠ lm ∧ st.lastPos.x ≠ LONG_MIN then
          match findMonitor st.monitors lm, findMonitor st.monitors cur with
          | Option.some src, Option.some dst =>
            let hit := FindExitEdge st.lastPos ev.pt src.rc
            if hit.edge ≠ Edge.none then
              match RemapCursor src.rc dst.rc hit.edge hit.coord with
              | Option.some mapped =>
                if mapped ≠ ev.pt then
                  if env.setCursorOk then
                    ({ st with
                        lastMonitor := env.monitorFromPoint mapped
                        lastPos := mapped
                        suppressing := false }, true)
                  else done
                else done
              | Option.none => done
            else done
          | _, _ => done
        else done

/-- The sort key the `BuildTopoSignature` comparator looks at: device-name
array, then `rc.left`, then `rc.top`. -/
def monKey (m : MonitorInfo) : List ℕ × ℤ × ℤ := (m.device, m.rc.left, m.rc.top)

/-- Invariant of the `tryEdge` fold used to reason about `FindExitEdge`:
either nothing has been accepted yet and `b` is the sentinel, or `b` is one
of the accepted candidates processed so far (`A`), has minimal `t` among
them, and any exact tie at that `t` was resolved to a horizontal edge
exactly when `|dx| >= |dy|`. -/
def InvC4 (dx dy : ℚ) (A : List HitResult) (b : HitResult) : Prop :=
  (A = [] ∧ b = noHit) ∨
  (b ∈ A ∧ (∀ c ∈ A, b.t ≤ c.t) ∧
    (∀ c ∈ A, c.t = b.t → c ≠ b → (isHoriz b.edge = true ↔ |dy| ≤ |dx|)))

/-- Pixel containment under the half-open convention stated in the source:
`[left, right) × [top, bottom)`. -/
def containsPt (rc : Rect) (p : Pt) : Prop :=
  rc.left ≤ p.x ∧ p.x < rc.right ∧ rc.top ≤ p.y ∧ p.y < rc.bottom

instance (rc : Rect) (p : Pt) : Decidable (containsPt rc p) := by
  unfold containsPt; infer_instance

/-- Overlap of source and destination along the axis perpendicular to the
exit edge, exactly as `RemapCursor` computes `ovEnd - ovStart`. -/
def perpOverlap (src dst : Rect) (edge : Edge) : ℤ :=
  if edge = Edge.left ∨ edge = Edge.right then
    min src.bottom dst.bottom - max src.top dst.top
  else min src.right dst.right - max src.left dst.left

/-- Source extent along the mapping axis chosen by `RemapCursor` (`srcLen`). -/
def perpSrcLen (src : Rect) (edge : Edge) : ℤ :=
  if edge = Edge.left ∨ edge = Edge.right then src.bottom - src.top
  else src.right - src.left

/-- Destination extent along the mapping axis chosen by `RemapCursor`
(`dstLen`). -/
def perpDstLen (dst : Rect) (edge : Edge) : ℤ :=
  if edge = Edge.left ∨ edge = Edge.right then dst.bottom - dst.top
  else dst.right - dst.left

/-! ### Basic lemmas about `tryEdge` and the boundary candidates -/

theorem eps_pos : (0 : ℚ) < eps := by norm_num [eps]

theorem eps_lt_one : eps < 1 := by norm_num [eps]

theorem tryEdge_eq_or (dx dy : ℚ) (c b : HitResult) :
    tryEdge dx dy c b = b ∨ tryEdge dx dy c b = c := by
  unfold tryEdge; split_ifs <;> simp

theorem tryEdge_reject (dx dy : ℚ) (c b : HitResult) (h1 : c.t < eps)
    (h2 : outwardB dx dy c.edge = false) : tryEdge dx dy c b = b := by
  unfold tryEdge
  by_cases g1 : c.t < -eps ∨ 1 < c.t
  · rw [if_pos g1]
  · rw [if_neg g1, if_pos ⟨h1, h2⟩]

theorem acceptOK_iff (dx dy : ℚ) (c : HitResult) :
    acceptOK dx dy c = true ↔
      (-eps ≤ c.t ∧ c.t ≤ 1) ∧ (eps ≤ c.t ∨ outwardB dx dy c.edge = true) := by
  simp [acceptOK, Bool.and_eq_true, Bool.or_eq_true, decide_eq_true_eq, and_assoc]

theorem tryEdge_of_reject (dx dy : ℚ) (c b : HitResult)
    (h : acceptOK dx dy c = false) : tryEdge dx dy c b = b := by
  unfold tryEdge
  by_cases g1 : c.t < -eps ∨ 1 < c.t
  · rw [if_pos g1]
  · rw [if_neg g1]
    push_neg at g1
    rw [if_pos]
    have h' : ¬ ((-eps ≤ c.t ∧ c.t ≤ 1) ∧ (eps ≤ c.t ∨ outwardB dx dy c.edge = true)) := by
      rw [← acceptOK_iff]; simp [h]
    push_neg at h'
    rcases h' ⟨g1.1, g1.2⟩ with ⟨h1, h2⟩
    exact ⟨h1, by simpa using h2⟩

theorem tryEdge_of_accept (dx dy : ℚ) (c b : HitResult)
    (h : acceptOK dx dy c = true) :
    tryEdge dx dy c b =
      if c.t < b.t - eps then c
      else if |c.t - b.t| < eps then
        if isHoriz c.edge = true then (if |dy| ≤ |dx| then c else b)
        else (if |dx| < |dy| then c else b)
      else b := by
  rw [acceptOK_iff] at h
  obtain ⟨⟨ha, hb⟩, hc⟩ := h
  have g1 : ¬ (c.t < -eps ∨ 1 < c.t) := by rintro (h' | h') <;> linarith
  have g2 : ¬ (c.t < eps ∧ outwardB dx dy c.edge = false) := by
    rintro ⟨hlt, hout⟩
    rcases hc with h' | h'
    · linarith
    · rw [h'] at hout; cases hout
  unfold tryEdge
  rw [if_neg g1, if_neg g2]

theorem foldl_tryEdge_cases (dx dy : ℚ) :
    ∀ (L : List HitResult) (b : HitResult),
      L.foldl (fun b c => tryEdge dx dy c b) b = b ∨
        ∃ c ∈ L, L.foldl (fun b c => tryEdge dx dy c b) b = c := by
  intro L
  induction L with
  | nil => intro b; exact Or.inl rfl
  | cons c L ih =>
    intro b
    rw [List.foldl_cons]
    rcases ih (tryEdge dx dy c b) with h | ⟨c', hc', h⟩
    · rw [h]
      rcases tryEdge_eq_or dx dy c b with h2 | h2
      · exact Or.inl h2
      · exact Or.inr ⟨c, List.mem_cons_self c L, h2⟩
    · exact Or.inr ⟨c', List.mem_cons_of_mem c hc', h⟩

theorem rightCand_some {p0 p1 : Pt} {rc : Rect} {c : HitResult}
    (h : rightCand p0 p1 rc = Option.some c) :
    dxQ p0 p1 ≠ 0 ∧
      c = ⟨Edge.right, ((rc.right : ℚ) - (p0.x : ℚ)) / dxQ p0 p1,
        (p0.y : ℚ) + ((rc.right : ℚ) - (p0.x : ℚ)) / dxQ p0 p1 * dyQ p0 p1⟩ ∧
      (rc.top : ℚ) ≤ c.coord ∧ c.coord ≤ (rc.bottom : ℚ) := by
  simp only [rightCand] at h
  split_ifs at h with h1 h2
  · obtain rfl := Option.some.inj h
    exact ⟨h1, rfl, h2⟩

theorem leftCand_some {p0 p1 : Pt} {rc : Rect} {c : HitResult}
    (h : leftCand p0 p1 rc = Option.some c) :
    dxQ p0 p1 ≠ 0 ∧
      c = ⟨Edge.left, ((rc.left : ℚ) - (p0.x : ℚ)) / dxQ p0 p1,
        (p0.y : ℚ) + ((rc.left : ℚ) - (p0.x : ℚ)) / dxQ p0 p1 * dyQ p0 p1⟩ ∧
      (rc.top : ℚ) ≤ c.coord ∧ c.coord ≤ (rc.bottom : ℚ) := by
  simp only [leftCand] at h
  split_ifs at h with h1 h2
  · obtain rfl := Option.some.inj h
    exact ⟨h1, rfl, h2⟩

theorem bottomCand_some {p0 p1 : Pt} {rc : Rect} {c : HitResult}
    (h : bottomCand p0 p1 rc = Option.some c) :
    dyQ p0 p1 ≠ 0 ∧
      c = ⟨Edge.bottom, ((rc.bottom : ℚ) - (p0.y : ℚ)) / dyQ p0 p1,
        (p0.x : ℚ) + ((rc.bottom : ℚ) - (p0.y : ℚ)) / dyQ p0 p1 * dxQ p0 p1⟩ ∧
      (rc.left : ℚ) ≤ c.coord ∧ c.coord ≤ (rc.right : ℚ) := by
  simp only [bottomCand] at h
  split_ifs at h with h1 h2
  · obtain rfl := Option.some.inj h
    exact ⟨h1, rfl, h2⟩

theorem topCand_some {p0 p1 : Pt} {rc : Rect} {c : HitResult}
    (h : topCand p0 p1 rc = Option.some c) :
    dyQ p0 p1 ≠ 0 ∧
      c = ⟨Edge.top, ((rc.top : ℚ) - (p0.y : ℚ)) / dyQ p0 p1,
        (p0.x : ℚ) + ((rc.top : ℚ) - (p0.y : ℚ)) / dyQ p0 p1 * dxQ p0 p1⟩ ∧
      (rc.left : ℚ) ≤ c.coord ∧ c.coord ≤ (rc.right : ℚ) := by
  simp only [topCand] at h
  split_ifs at h with h1 h2
  · obtain rfl := Option.some.inj h
    exact ⟨h1, rfl, h2⟩

theorem mem_candList {p0 p1 : Pt} {rc : Rect} {c : HitResult}
    (h : c ∈ candList p0 p1 rc) :
    rightCand p0 p1 rc = Option.some c ∨ leftCand p0 p1 rc = Option.some c ∨
      bottomCand p0 p1 rc = Option.some c ∨ topCand p0 p1 rc = Option.some c := by
  simp only [candList, List.mem_append, Option.mem_toList, Option.mem_def] at h
  tauto

/-! ### Claim C9 — degenerate axes are skipped and the function is total -/

/-- Claim C9: `FindExitEdge` never evaluates a boundary test with a zero
denominator: the Left/Right computations happen only when `dx ≠ 0` and the
Top/Bottom ones only when `dy ≠ 0`, so when `dx = 0` the result can name no
horizontal edge, when `dy = 0` no vertical edge, and a zero-length segment
returns the no-hit sentinel (edge `None`). -/
theorem findExitEdge_degenerate_safe (p0 p1 : Pt) (rc : Rect) :
    (p1 = p0 → FindExitEdge p0 p1 rc = noHit) ∧
    (p1.x = p0.x →
      (FindExitEdge p0 p1 rc).edge ≠ Edge.left ∧ (FindExitEdge p0 p1 rc).edge ≠ Edge.right) ∧
    (p1.y = p0.y →
      (FindExitEdge p0 p1 rc).edge ≠ Edge.top ∧ (FindExitEdge p0 p1 rc).edge ≠ Edge.bottom) := by
  refine ⟨?_, ?_, ?_⟩
  · rintro rfl
    simp [FindExitEdge, candList, rightCand, leftCand, bottomCand, topCand, dxQ, dyQ]
  · intro hx
    have hdx : dxQ p0 p1 = 0 := by simp [dxQ, hx]
    have hR : rightCand p0 p1 rc = Option.none := by simp [rightCand, hdx]
    have hL : leftCand p0 p1 rc = Option.none := by simp [leftCand, hdx]
    rcases foldl_tryEdge_cases (dxQ p0 p1) (dyQ p0 p1) (candList p0 p1 rc) noHit with
      hh | ⟨c, hc, hh⟩
    · constructor <;> (unfold FindExitEdge; rw [hh]) <;> simp [noHit]
    · rcases mem_candList hc with h' | h' | h' | h'
      · rw [hR] at h'; simp at h'
      · rw [hL] at h'; simp at h'
      · obtain ⟨-, rfl, -⟩ := bottomCand_some h'
        constructor <;> (unfold FindExitEdge; rw [hh]) <;> simp
      · obtain ⟨-, rfl, -⟩ := topCand_some h'
        constructor <;> (unfold FindExitEdge; rw [hh]) <;> simp
  · intro hy
    have hdy : dyQ p0 p1 = 0 := by simp [dyQ, hy]
    have hB : bottomCand p0 p1 rc = Option.none := by simp [bottomCand, hdy]
    have hT : topCand p0 p1 rc = Option.none := by simp [topCand, hdy]
    rcases foldl_tryEdge_cases (dxQ p0 p1) (dyQ p0 p1) (candList p0 p1 rc) noHit with
      hh | ⟨c, hc, hh⟩
    · constructor <;> (unfold FindExitEdge; rw [hh]) <;> simp [noHit]
    · rcases mem_candList hc with h' | h' | h' | h'
      · obtain ⟨-, rfl, -⟩ := rightCand_some h'
        constructor <;> (unfold FindExitEdge; rw [hh]) <;> simp
      · obtain ⟨-, rfl, -⟩ := leftCand_some h'
        constructor <;> (unfold FindExitEdge; rw [hh]) <;> simp
      · rw [hB] at h'; simp at h'
      · rw [hT] at h'; simp at h'

/-- Witness for C9: a zero-length segment returns the sentinel, and a purely
vertical segment never reports a horizontal exit edge. -/
theorem findExitEdge_degenerate_safe_witness :
    FindExitEdge ⟨3, 4⟩ ⟨3, 4⟩ ⟨0, 0, 10, 10⟩ = noHit ∧
      (FindExitEdge ⟨3, 4⟩ ⟨3, 9⟩ ⟨0, 0, 10, 10⟩).edge ≠ Edge.left :=
  ⟨(findExitEdge_degenerate_safe ⟨3, 4⟩ ⟨3, 4⟩ ⟨0, 0, 10, 10⟩).1 rfl,
   ((findExitEdge_degenerate_safe ⟨3, 4⟩ ⟨3, 9⟩ ⟨0, 0, 10, 10⟩).2.1 rfl).1⟩

/-! ### Claim C7 — non-adjacent rejection in `RemapCursor` -/

/-- Claim C7: `RemapCursor` fails (returns no point) whenever the overlap of
source and destination along the axis perpendicular to the edge is zero or
negative, or either rectangle has non-positive extent along that axis, or
the edge is `None`. -/
theorem remapCursor_fails_nonadjacent (src dst : Rect) (edge : Edge) (hit : ℚ)
    (h : edge = Edge.none ∨ perpOverlap src dst edge ≤ 0 ∨ perpSrcLen src edge ≤ 0 ∨
      perpDstLen dst edge ≤ 0) :
    RemapCursor src dst edge hit = Option.none := by
  rcases h with h | h | h | h
  · subst h
    simp [RemapCursor]
  · cases edge <;> simp_all [RemapCursor, perpOverlap]
  · cases edge <;> simp_all [RemapCursor, perpSrcLen]
  · cases edge <;> simp_all [RemapCursor, perpDstLen]

/-- Witness for C7: two displays stacked with a 100-pixel vertical gap have
non-positive vertical overlap, so a Right-edge remap between them fails. -/
theorem remapCursor_fails_nonadjacent_witness :
    RemapCursor ⟨0, 0, 100, 100⟩ ⟨0, 200, 100, 300⟩ Edge.right 50 = Option.none :=
  remapCursor_fails_nonadjacent ⟨0, 0, 100, 100⟩ ⟨0, 200, 100, 300⟩ Edge.right 50
    (Or.inr (Or.inl (by decide)))

/-! ### Claim C2 — the concrete proportional mapping example -/

/-- Claim C2: for source rect (0,0,1920,1080), destination rect
(1920,0,2560,1440), exit edge Right and hit coordinate 540, `RemapCursor`
succeeds with exactly the point (1921, 720): the percentage is 1/2, the
mapped value `0 + round(0.5*1440) = 720` stays inside the clamp range
`[1, 1438]`, and x is placed one pixel inside the destination's left edge. -/
theorem remapCursor_proportional_example :
    clampQ ((540 - (0 : ℚ)) / 1080) 0 1 = 1 / 2 ∧
    lroundQ ((1 / 2 : ℚ) * 1440) = 720 ∧
    clampZ 720 1 1438 = 720 ∧
    RemapCursor ⟨0, 0, 1920, 1080⟩ ⟨1920, 0, 2560, 1440⟩ Edge.right 540 =
      Option.some ⟨1921, 720⟩ := by decide

/-! ### Claim C6 — the output point versus the destination interior -/

theorem clampZ_mem (v lo hi : ℤ) (h : lo ≤ hi) :
    lo ≤ clampZ v lo hi ∧ clampZ v lo hi ≤ hi := by
  unfold clampZ; split_ifs <;> omega

/-- Claim C6 counterexample: with a destination rectangle of width 1 the
crossed-axis coordinate is placed at `dst.left + 1 = dst.right`, which is
not inside the destination under the half-open containment convention, yet
`RemapCursor` succeeds (the crossed axis is never validated). -/
theorem remapCursor_interior_counterexample :
    RemapCursor ⟨0, 0, 1920, 1080⟩ ⟨1920, 0, 1921, 1440⟩ Edge.right 540 =
      Option.some ⟨1921, 720⟩ ∧
    ¬ containsPt ⟨1920, 0, 1921, 1440⟩ ⟨1921, 720⟩ := by decide

/-- Claim C6 (amended): whenever `RemapCursor` succeeds *and the destination
rectangle measures at least 3 pixels on both axes*, the returned point lies
strictly inside the destination (one-pixel inset from every boundary), with
the along-edge coordinate clamped into `[destStart+1, destEnd-2]` and the
crossed-axis coordinate one pixel inside the entered edge. -/
theorem remapCursor_interior (src dst : Rect) (edge : Edge) (hit : ℚ) (p : Pt)
    (h : RemapCursor src dst edge hit = Option.some p)
    (hw : 3 ≤ dst.right - dst.left) (hh : 3 ≤ dst.bottom - dst.top) :
    (dst.left + 1 ≤ p.x ∧ p.x ≤ dst.right - 2 ∧ dst.top + 1 ≤ p.y ∧ p.y ≤ dst.bottom - 2) ∧
    (edge = Edge.right → p.x = dst.left + 1) ∧
    (edge = Edge.left → p.x = dst.right - 2) ∧
    (edge = Edge.bottom → p.y = dst.top + 1) ∧
    (edge = Edge.top → p.y = dst.bottom - 2) := by
  cases edge with
  | none =>
    simp [RemapCursor] at h
  | right =>
    simp [RemapCursor] at h
    obtain ⟨-, rfl⟩ := h
    dsimp only
    refine ⟨⟨by omega, by omega, (clampZ_mem _ _ _ (by omega)).1,
        (clampZ_mem _ _ _ (by omega)).2⟩, ?_, ?_, ?_, ?_⟩ <;>
      intro hc <;> first | rfl | exact absurd hc (by decide)
  | left =>
    simp [RemapCursor] at h
    obtain ⟨-, rfl⟩ := h
    dsimp only
    refine ⟨⟨by omega, by omega, (clampZ_mem _ _ _ (by omega)).1,
        (clampZ_mem _ _ _ (by omega)).2⟩, ?_, ?_, ?_, ?_⟩ <;>
      intro hc <;> first | rfl | exact absurd hc (by decide)
  | bottom =>
    simp [RemapCursor] at h
    obtain ⟨-, rfl⟩ := h
    dsimp only
    refine ⟨⟨(clampZ_mem _ _ _ (by omega)).1, (clampZ_mem _ _ _ (by omega)).2,
        by omega, by omega⟩, ?_, ?_, ?_, ?_⟩ <;>
      intro hc <;> first | rfl | exact absurd hc (by decide)
  | top =>
    simp [RemapCursor] at h
    obtain ⟨-, rfl⟩ := h
    dsimp only
    refine ⟨⟨(clampZ_mem _ _ _ (by omega)).1, (clampZ_mem _ _ _ (by omega)).2,
        by omega, by omega⟩, ?_, ?_, ?_, ?_⟩ <;>
      intro hc <;> first | rfl | exact absurd hc (by decide)

/-- Witness for the amended C6: the point (1921, 720) produced by the C2
scenario is strictly inside the 640x1440 destination. -/
theorem remapCursor_interior_witness :
    (1920 + 1 ≤ (1921 : ℤ) ∧ (1921 : ℤ) ≤ 2560 - 2 ∧ 0 + 1 ≤ (720 : ℤ) ∧
      (720 : ℤ) ≤ 1440 - 2) ∧
    (Edge.right = Edge.right → (1921 : ℤ) = 1920 + 1) ∧
    (Edge.right = Edge.left → (1921 : ℤ) = 2560 - 2) ∧
    (Edge.right = Edge.bottom → (720 : ℤ) = 0 + 1) ∧
    (Edge.right = Edge.top → (720 : ℤ) = 1440 - 2) :=
  remapCursor_interior ⟨0, 0, 1920, 1080⟩ ⟨1920, 0, 2560, 1440⟩ Edge.right 540 ⟨1921, 720⟩
    (by decide) (by decide) (by decide)

/-! ### Claim C5 — a segment starting exactly on the left boundary -/

theorem div_nonpos_of (a b : ℚ) (ha : 0 ≤ a) (hb : b < 0) : a / b ≤ 0 := by
  rcases eq_or_lt_of_le ha with h | h
  · rw [← h]; simp
  · exact le_of_lt (div_neg_of_pos_of_neg h hb)

theorem foldl_optList (f : HitResult → HitResult → HitResult)
    (o : Option HitResult) (b : HitResult) (h : ∀ c, o = Option.some c → f b c = b) :
    o.toList.foldl f b = b := by
  cases o with
  | none => rfl
  | some c => exact h c rfl

theorem tryEdge_keep_vert (dx dy : ℚ) (c b : HitResult)
    (hv : isHoriz c.edge = false) (hb : b.t = 0) (hdom : |dy| ≤ |dx|) :
    tryEdge dx dy c b = b := by
  unfold tryEdge
  split_ifs with g1 g2 g3 g4 g5 g6 <;> try rfl
  all_goals first
    | (exfalso; push_neg at g1; rw [hb] at g3; linarith [g1.1, eps_pos])
    | (rw [hv] at g5; exact Bool.noConfusion g5)

theorem foldl_edge_ne (dx dy : ℚ) (e : Edge) :
    ∀ (L : List HitResult) (b : HitResult), b.edge ≠ e →
      (∀ c ∈ L, c.edge ≠ e ∨ ∀ b', tryEdge dx dy c b' = b') →
      (L.foldl (fun b c => tryEdge dx dy c b) b).edge ≠ e := by
  intro L
  induction L with
  | nil => intro b hb _; exact hb
  | cons c L ih =>
    intro b hb hall
    rw [List.foldl_cons]
    apply ih
    · rcases hall c (List.mem_cons_self c L) with h | h
      · rcases tryEdge_eq_or dx dy c b with h2 | h2 <;> rw [h2]
        · exact hb
        · exact h
      · rw [h b]; exact hb
    · intro c' hc'; exact hall c' (List.mem_cons_of_mem c hc')

/-- Claim C5 counterexample: the segment from (0,0) to (-1,-2) starts
exactly on the left boundary of (0,0,100,100) with `previous.y` inside the
vertical extent and `dx < 0`, yet `FindExitEdge` reports Top, not Left: the
start point also lies on the top boundary and the `|dy| > |dx|` tie-break
hands the exact `t = 0` tie to the vertical edge. -/
theorem findExitEdge_left_boundary_counterexample :
    FindExitEdge ⟨0, 0⟩ ⟨-1, -2⟩ ⟨0, 0, 100, 100⟩ = ⟨Edge.top, 0, 0⟩ ∧
    dxQ ⟨0, 0⟩ ⟨-1, -2⟩ < 0 ∧ Edge.top ≠ Edge.left := by decide

/-- Claim C5 (amended): for a segment starting exactly on the left boundary
with `previous.y` within the vertical extent, moving left (`dx < 0`) exits
Left *provided the horizontal delta dominates* (`|dy| ≤ |dx|`; otherwise a
corner start can hand the `t ≈ 0` tie to a vertical edge); and a segment
moving right or not at all (`dx ≥ 0`) never exits through Left. -/
theorem findExitEdge_left_boundary (p0 p1 : Pt) (rc : Rect)
    (hx : p0.x = rc.left) (hy1 : rc.top ≤ p0.y) (hy2 : p0.y ≤ rc.bottom)
    (hlr : rc.left ≤ rc.right) :
    (dxQ p0 p1 < 0 → |dyQ p0 p1| ≤ |dxQ p0 p1| →
      FindExitEdge p0 p1 rc = ⟨Edge.left, 0, (p0.y : ℚ)⟩) ∧
    (0 ≤ dxQ p0 p1 → (FindExitEdge p0 p1 rc).edge ≠ Edge.left) := by
  constructor
  · intro hdx hdom
    have hdx0 : dxQ p0 p1 ≠ 0 := ne_of_lt hdx
    have hnum0 : ((rc.left : ℚ) - (p0.x : ℚ)) = 0 := by rw [hx]; ring
    have hL : leftCand p0 p1 rc = Option.some ⟨Edge.left, 0, (p0.y : ℚ)⟩ := by
      simp only [leftCand]
      rw [if_neg hdx0, hnum0]
      rw [zero_div]
      rw [if_pos]
      · norm_num
      · rw [zero_mul, add_zero]
        exact ⟨by exact_mod_cast hy1, by exact_mod_cast hy2⟩
    have hstepL : tryEdge (dxQ p0 p1) (dyQ p0 p1) ⟨Edge.left, 0, (p0.y : ℚ)⟩ noHit =
        ⟨Edge.left, 0, (p0.y : ℚ)⟩ := by
      unfold tryEdge
      dsimp only
      have g1 : ¬((0 : ℚ) < -eps ∨ (1 : ℚ) < 0) := by
        rintro (h | h) <;> [linarith [eps_pos]; linarith]
      have g2 : ¬((0 : ℚ) < eps ∧ outwardB (dxQ p0 p1) (dyQ p0 p1) Edge.left = false) := by
        rintro ⟨-, hout⟩
        simp [outwardB] at hout
        linarith
      have g3 : (0 : ℚ) < noHit.t - eps := by norm_num [noHit, eps]
      rw [if_neg g1, if_neg g2, if_pos g3]
    unfold FindExitEdge candList
    rw [List.foldl_append, List.foldl_append, List.foldl_append]
    have h1 : List.foldl (fun b c => tryEdge (dxQ p0 p1) (dyQ p0 p1) c b) noHit
        (rightCand p0 p1 rc).toList = noHit := by
      apply foldl_optList
      intro c hc
      obtain ⟨-, rfl, -⟩ := rightCand_some hc
      apply tryEdge_reject
      · have hnum : (0 : ℚ) ≤ (rc.right : ℚ) - (p0.x : ℚ) := by
          rw [hx]
          have : (rc.left : ℚ) ≤ (rc.right : ℚ) := by exact_mod_cast hlr
          linarith
        have := div_nonpos_of _ _ hnum hdx
        dsimp only
        linarith [eps_pos]
      · dsimp only
        simp [outwardB]
        linarith
    rw [h1, hL, Option.toList_some]
    simp only [List.foldl_cons, List.foldl_nil]
    rw [hstepL]
    have h3 : List.foldl (fun b c => tryEdge (dxQ p0 p1) (dyQ p0 p1) c b)
        ⟨Edge.left, 0, (p0.y : ℚ)⟩ (bottomCand p0 p1 rc).toList =
        ⟨Edge.left, 0, (p0.y : ℚ)⟩ := by
      apply foldl_optList
      intro c hc
      obtain ⟨-, rfl, -⟩ := bottomCand_some hc
      exact tryEdge_keep_vert _ _ _ _ rfl rfl hdom
    rw [h3]
    apply foldl_optList
    intro c hc
    obtain ⟨-, rfl, -⟩ := topCand_some hc
    exact tryEdge_keep_vert _ _ _ _ rfl rfl hdom
  · intro hdx
    apply foldl_edge_ne
    · intro h; cases h
    · intro c hc
      rcases mem_candList hc with h' | h' | h' | h'
      · obtain ⟨-, rfl, -⟩ := rightCand_some h'
        left; intro h; cases h
      · obtain ⟨hdx0, rfl, -⟩ := leftCand_some h'
        right
        intro b'
        apply tryEdge_reject
        · have hz : ((rc.left : ℚ) - (p0.x : ℚ)) = 0 := by rw [hx]; ring
          dsimp only
          rw [hz, zero_div]
          exact eps_pos
        · dsimp only
          simp [outwardB]
          linarith
      · obtain ⟨-, rfl, -⟩ := bottomCand_some h'
        left; intro h; cases h
      · obtain ⟨-, rfl, -⟩ := topCand_some h'
        left; intro h; cases h

/-- Witness for the amended C5: from (0,50) on the left boundary of
(0,0,100,100), moving to (-5,47) exits Left at the start point; moving to
(7,50) instead reports no Left exit. -/
theorem findExitEdge_left_boundary_witness :
    FindExitEdge ⟨0, 50⟩ ⟨-5, 47⟩ ⟨0, 0, 100, 100⟩ = ⟨Edge.left, 0, 50⟩ ∧
      (FindExitEdge ⟨0, 50⟩ ⟨7, 50⟩ ⟨0, 0, 100, 100⟩).edge ≠ Edge.left :=
  ⟨(findExitEdge_left_boundary ⟨0, 50⟩ ⟨-5, 47⟩ ⟨0, 0, 100, 100⟩ rfl (by decide) (by decide)
      (by decide)).1 (by decide) (by decide),
   (findExitEdge_left_boundary ⟨0, 50⟩ ⟨7, 50⟩ ⟨0, 0, 100, 100⟩ rfl (by decide) (by decide)
      (by decide)).2 (by decide)⟩

/-! ### Claim C8 — injected / suppressed events are inert -/

/-- Claim C8: every move event whose injected flag is set, and every event
arriving while the suppression flag is active, is passed through unmodified
(decision `false`) and leaves the whole state — monitors, last monitor,
last position, suppression flag — exactly as it was. -/
theorem mouseHookProc_guard (env : HookEnv) (st : GState) (ev : MouseEvent)
    (h : ev.injected = true ∨ st.suppressing = true) :
    mouseHookProc env st ev = (st, false) := by
  rcases h with h | h
  · unfold mouseHookProc; rw [if_pos h]
  · unfold mouseHookProc
    by_cases hi : ev.injected = true
    · rw [if_pos hi]
    · rw [if_neg hi, if_pos h]

/-- Witness for C8: an injected event whose position would otherwise
describe a valid crossing from monitor 1 to monitor 2 changes nothing and
is passed through. -/
theorem mouseHookProc_guard_witness :
    mouseHookProc
        ⟨fun p => if p.x < 1920 then Option.some 1 else Option.some 2, true⟩
        ⟨[⟨1, ⟨0, 0, 1920, 1080⟩, true, [68, 49, 0]⟩,
            ⟨2, ⟨1920, 0, 2560, 1440⟩, false, [68, 50, 0]⟩],
          "s", Option.some 1, ⟨1900, 540⟩, false⟩
        ⟨⟨1930, 540⟩, true⟩ =
      (⟨[⟨1, ⟨0, 0, 1920, 1080⟩, true, [68, 49, 0]⟩,
            ⟨2, ⟨1920, 0, 2560, 1440⟩, false, [68, 50, 0]⟩],
          "s", Option.some 1, ⟨1900, 540⟩, false⟩, false) :=
  mouseHookProc_guard _ _ _ (Or.inl rfl)

/-! ### Claim C10 — the suppression flag cannot stay stuck -/

/-- Claim C10: when the hook handler starts with the suppression flag
clear, it ends with the flag clear on every exit path — in particular the
flag set around the `SetCursorPos` call is reset whether or not the
relocation succeeds, so a relocation failure can never permanently disable
tracking. -/
theorem mouseHookProc_suppressing_clear (env : HookEnv) (st : GState) (ev : MouseEvent)
    (h : st.suppressing = false) :
    (mouseHookProc env st ev).1.suppressing = false := by
  unfold mouseHookProc
  by_cases h1 : ev.injected = true
  · rw [if_pos h1]; exact h
  rw [if_neg h1]
  by_cases h2 : st.suppressing = true
  · rw [if_pos h2]; exact h
  rw [if_neg h2]
  rcases hmp : env.monitorFromPoint ev.pt with _ | cur <;> dsimp only
  · exact h
  rcases hlm : st.lastMonitor with _ | lm <;> dsimp only
  · exact h
  by_cases h3 : cur ≠ lm ∧ st.lastPos.x ≠ LONG_MIN
  · rw [if_pos h3]
    rcases hsrc : findMonitor st.monitors lm with _ | src <;>
      rcases hdst : findMonitor st.monitors cur with _ | dst <;>
      dsimp only <;> try exact h
    by_cases h4 : (FindExitEdge st.lastPos ev.pt src.rc).edge ≠ Edge.none
    · rw [if_pos h4]
      rcases hrm : RemapCursor src.rc dst.rc (FindExitEdge st.lastPos ev.pt src.rc).edge
          (FindExitEdge st.lastPos ev.pt src.rc).coord with _ | mapped <;>
        dsimp only
      · exact h
      by_cases h5 : mapped ≠ ev.pt
      · rw [if_pos h5]
        by_cases h6 : env.setCursorOk = true
        · rw [if_pos h6]
        · rw [if_neg h6]; exact h
      · rw [if_neg h5]; exact h
    · rw [if_neg h4]; exact h
  · rw [if_neg h3]; exact h

/-- Witness for C10: a crossing whose `SetCursorPos` fails still ends with
the suppression flag clear. -/
theorem mouseHookProc_suppressing_clear_witness :
    (mouseHookProc
        ⟨fun p => if p.x < 1920 then Option.some 1 else Option.some 2, false⟩
        ⟨[⟨1, ⟨0, 0, 1920, 1080⟩, true, [68, 49, 0]⟩,
            ⟨2, ⟨1920, 0, 2560, 1440⟩, false, [68, 50, 0]⟩],
          "s", Option.some 1, ⟨1900, 540⟩, false⟩
        ⟨⟨1930, 540⟩, false⟩).1.suppressing = false :=
  mouseHookProc_suppressing_clear _ _ _ rfl

/-! ### Claim C1 — refresh that enumerates zero displays -/

/-- Claim C1 counterexample: starting from a held one-monitor snapshot, a
refresh that enumerates zero displays does *not* keep the previous
snapshot: the empty signature differs from the held one, so the code takes
the "changed" branch, empties the monitor list and signature, and resets
the cursor-tracking state. -/
theorem refreshMonitors_zero_displays_counterexample :
    refreshMonitors []
        ⟨[⟨1, ⟨0, 0, 1920, 1080⟩, true, [68, 49, 0]⟩],
          buildTopoSignature [⟨1, ⟨0, 0, 1920, 1080⟩, true, [68, 49, 0]⟩],
          Option.some 1, ⟨5, 5⟩, false⟩ =
      ⟨[], "", Option.none, ptUnknown, false⟩ ∧
    ([] : List MonitorInfo) ≠ [⟨1, ⟨0, 0, 1920, 1080⟩, true, [68, 49, 0]⟩] ∧
    ptUnknown ≠ (⟨5, 5⟩ : Pt) := by decide

/-- Claim C1 (amended): a refresh that enumerates zero displays while the
held signature is nonempty is treated as a topology *change*: the snapshot
is replaced by the empty list, the signature by the empty string, and the
tracking state (last monitor, last position) is reset to unknown.  Only the
suppression flag is untouched. -/
theorem refreshMonitors_zero_displays_resets (st : GState)
    (h : st.topoSignature ≠ "") :
    refreshMonitors [] st =
      { st with
        monitors := []
        topoSignature := ""
        lastMonitor := Option.none
        lastPos := ptUnknown } := by
  simp only [refreshMonitors]
  rw [if_neg]
  · rfl
  · exact fun hc => h hc.symm

/-- Witness for the amended C1: a concrete one-monitor state is emptied and
reset by a zero-display refresh. -/
theorem refreshMonitors_zero_displays_resets_witness :
    refreshMonitors []
        ⟨[⟨2, ⟨0, 0, 800, 600⟩, true, [65, 0]⟩], "0,0,800,600,1,A;",
          Option.some 2, ⟨10, 20⟩, false⟩ =
      ⟨[], "", Option.none, ptUnknown, false⟩ :=
  refreshMonitors_zero_displays_resets _ (by decide)

/-! ### Claim C3 — the topology signature as a change detector -/

theorem wcmp_self : ∀ d, wcmp d d = Ordering.eq := by
  intro d
  induction d with
  | nil => rfl
  | cons a as ih =>
    unfold wcmp
    rw [if_neg (lt_irrefl a), if_neg (lt_irrefl a)]
    exact ih

theorem wcmp_eq_eq : ∀ d e, wcmp d e = Ordering.eq → d = e := by
  intro d
  induction d with
  | nil =>
    intro e h
    cases e with
    | nil => rfl
    | cons b bs => simp [wcmp] at h
  | cons a as ih =>
    intro e h
    cases e with
    | nil => simp [wcmp] at h
    | cons b bs =>
      unfold wcmp at h
      split_ifs at h with h1 h2
      · have hab : a = b := by omega
        rw [hab, ih bs h]

theorem wcmp_gt_iff : ∀ d e, wcmp d e = Ordering.gt ↔ wcmp e d = Ordering.lt := by
  intro d
  induction d with
  | nil =>
    intro e
    cases e <;> simp [wcmp]
  | cons a as ih =>
    intro e
    cases e with
    | nil => simp [wcmp]
    | cons b bs =>
      unfold wcmp
      rcases lt_trichotomy a b with h | h | h
      · rw [if_pos h, if_neg (by omega : ¬ b < a), if_pos h]
        simp
      · subst h
        rw [if_neg (lt_irrefl a), if_neg (lt_irrefl a), if_neg (lt_irrefl a),
          if_neg (lt_irrefl a)]
        exact ih bs
      · rw [if_neg (by omega : ¬ a < b), if_pos h, if_pos h]
        simp

theorem wcmp_lt_trans : ∀ d e f, wcmp d e = Ordering.lt → wcmp e f = Ordering.lt →
    wcmp d f = Ordering.lt := by
  intro d
  induction d with
  | nil =>
    intro e f h1 h2
    cases e with
    | nil => simp [wcmp_self] at h1
    | cons b bs =>
      cases f with
      | nil => simp [wcmp] at h2
      | cons c cs => rfl
  | cons a as ih =>
    intro e f h1 h2
    cases e with
    | nil => simp [wcmp] at h1
    | cons b bs =>
      cases f with
      | nil => simp [wcmp] at h2
      | cons c cs =>
        unfold wcmp at h1 h2 ⊢
        by_cases hab : a < b
        · rw [if_pos hab] at h1
          by_cases hbc : b < c
          · rw [if_pos (by omega : a < c)]
          · rw [if_neg hbc] at h2
            by_cases hcb : c < b
            · rw [if_pos hcb] at h2; cases h2
            · rw [if_pos (by omega : a < c)]
        · rw [if_neg hab] at h1
          by_cases hba : b < a
          · rw [if_pos hba] at h1; cases h1
          · rw [if_neg hba] at h1
            by_cases hbc : b < c
            · rw [if_pos (by omega : a < c)]
            · rw [if_neg hbc] at h2
              by_cases hcb : c < b
              · rw [if_pos hcb] at h2; cases h2
              · rw [if_neg hcb] at h2
                rw [if_neg (by omega : ¬ a < c), if_neg (by omega : ¬ c < a)]
                exact ih bs cs h1 h2

theorem intPair_asymm (la ta lb tb : ℤ)
    (h : (if la ≠ lb then decide (la < lb) else decide (ta < tb)) = true) :
    (if lb ≠ la then decide (lb < la) else decide (tb < ta)) = false := by
  split_ifs at * <;> simp_all <;> omega

theorem intPair_eq (la ta lb tb : ℤ)
    (h1 : (if la ≠ lb then decide (la < lb) else decide (ta < tb)) = false)
    (h2 : (if lb ≠ la then decide (lb < la) else decide (tb < ta)) = false) :
    la = lb ∧ ta = tb := by
  split_ifs at * <;> simp_all <;> omega

theorem intPair_le_trans (la ta lb tb lc tc : ℤ)
    (h1 : (if lb ≠ la then decide (lb < la) else decide (tb < ta)) = false)
    (h2 : (if lc ≠ lb then decide (lc < lb) else decide (tc < tb)) = false) :
    (if lc ≠ la then decide (lc < la) else decide (tc < ta)) = false := by
  split_ifs at * <;> simp_all <;> omega

theorem monLt_asymm {a b : MonitorInfo} (h : monLt a b = true) : monLt b a = false := by
  unfold monLt at h ⊢
  rcases hw : wcmp a.device b.device with _ | _ | _ <;> rw [hw] at h <;> dsimp only at h
  · -- a.device < b.device, so wcmp b a = gt
    rw [(wcmp_gt_iff b.device a.device).mpr hw]
  · -- equal devices
    have hdev : b.device = a.device := (wcmp_eq_eq _ _ hw).symm
    rw [hdev, wcmp_self]
    dsimp only
    exact intPair_asymm _ _ _ _ h
  · cases h

theorem monKey_eq_of_not_lt {a b : MonitorInfo} (h1 : monLt a b = false)
    (h2 : monLt b a = false) : monKey a = monKey b := by
  unfold monLt at h1 h2
  rcases hw : wcmp a.device b.device with _ | _ | _ <;> rw [hw] at h1 <;> dsimp only at h1
  · cases h1
  · have hdev : a.device = b.device := wcmp_eq_eq _ _ hw
    rw [hdev, wcmp_self] at h2
    dsimp only at h2
    have := intPair_eq _ _ _ _ h1 h2
    unfold monKey
    rw [hdev, this.1, this.2]
  · rw [(wcmp_gt_iff a.device b.device).mp hw] at h2
    dsimp only at h2
    cases h2

theorem monLe_trans {a b c : MonitorInfo} (h1 : monLt b a = false)
    (h2 : monLt c b = false) : monLt c a = false := by
  unfold monLt at h1 h2 ⊢
  rcases hba : wcmp b.device a.device with _ | _ | _ <;> rw [hba] at h1 <;> dsimp only at h1
  · cases h1
  · -- b.device = a.device
    have hba' : b.device = a.device := wcmp_eq_eq _ _ hba
    rcases hcb : wcmp c.device b.device with _ | _ | _ <;> rw [hcb] at h2 <;> dsimp only at h2
    · cases h2
    · have hcb' : c.device = b.device := wcmp_eq_eq _ _ hcb
      rw [hcb', hba', wcmp_self]
      dsimp only
      exact intPair_le_trans _ _ _ _ _ _ h1 h2
    · rw [← hba', hcb]
  · -- a.device < b.device
    rcases hcb : wcmp c.device b.device with _ | _ | _ <;> rw [hcb] at h2 <;> dsimp only at h2
    · cases h2
    · have hcb' : c.device = b.device := wcmp_eq_eq _ _ hcb
      rw [hcb', hba]
    · have hab : wcmp a.device b.device = Ordering.lt := (wcmp_gt_iff _ _).mp hba
      have hbc : wcmp b.device c.device = Ordering.lt := (wcmp_gt_iff _ _).mp hcb
      have hac : wcmp a.device c.device = Ordering.lt := wcmp_lt_trans _ _ _ hab hbc
      rw [(wcmp_gt_iff _ _).mpr hac]

theorem insertMon_perm (m : MonitorInfo) : ∀ l, (insertMon m l).Perm (m :: l) := by
  intro l
  induction l with
  | nil => exact List.Perm.refl _
  | cons x xs ih =>
    unfold insertMon
    split_ifs with hc
    · exact (List.Perm.cons x ih).trans (List.Perm.swap m x xs)
    · exact List.Perm.refl _

theorem sortMons_perm : ∀ l, (sortMons l).Perm l := by
  intro l
  induction l with
  | nil => exact List.Perm.refl _
  | cons m ms ih => exact (insertMon_perm m (sortMons ms)).trans (List.Perm.cons m ih)

theorem insertMon_sorted (m : MonitorInfo) :
    ∀ {l : List MonitorInfo}, l.Pairwise (fun a b => monLt b a = false) →
      (insertMon m l).Pairwise (fun a b => monLt b a = false) := by
  intro l
  induction l with
  | nil => intro _; simp [insertMon]
  | cons x xs ih =>
    intro hs
    rcases List.pairwise_cons.mp hs with ⟨hx, hxs⟩
    unfold insertMon
    split_ifs with hc
    · apply List.pairwise_cons.mpr
      constructor
      · intro y hy
        rcases List.mem_cons.mp ((insertMon_perm m xs).mem_iff.mp hy) with rfl | hy'
        · exact monLt_asymm hc
        · exact hx y hy'
      · exact ih hxs
    · apply List.pairwise_cons.mpr
      constructor
      · intro y hy
        rcases List.mem_cons.mp hy with rfl | hy'
        · exact Bool.eq_false_iff.mpr hc
        · exact monLe_trans (Bool.eq_false_iff.mpr hc) (hx y hy')
      · exact hs

theorem sortMons_sorted : ∀ l, (sortMons l).Pairwise (fun a b => monLt b a = false) := by
  intro l
  induction l with
  | nil => exact List.Pairwise.nil
  | cons m ms ih => exact insertMon_sorted m ih

theorem eq_of_mem_pairwise_ne {l : List MonitorInfo}
    (hp : l.Pairwise (fun a b => monKey a ≠ monKey b)) {a b : MonitorInfo}
    (ha : a ∈ l) (hb : b ∈ l) (hk : monKey a = monKey b) : a = b := by
  induction l with
  | nil => cases ha
  | cons x xs ih =>
    rcases List.pairwise_cons.mp hp with ⟨hx, hxs⟩
    rcases List.mem_cons.mp ha with rfl | ha' <;> rcases List.mem_cons.mp hb with rfl | hb'
    · rfl
    · exact absurd hk (hx _ hb')
    · exact absurd hk.symm (hx _ ha')
    · exact ih hxs ha' hb'

theorem sorted_perm_eq : ∀ {l1 l2 : List MonitorInfo}, l1.Perm l2 →
    l1.Pairwise (fun a b => monLt b a = false) →
    l2.Pairwise (fun a b => monLt b a = false) →
    (∀ a ∈ l1, ∀ b ∈ l1, monLt a b = false → monLt b a = false → a = b) →
    l1 = l2 := by
  intro l1
  induction l1 with
  | nil =>
    intro l2 hp _ _ _
    exact (hp.symm.eq_nil).symm
  | cons a t1 ih =>
    intro l2 hp hs1 hs2 hanti
    cases l2 with
    | nil => cases hp.eq_nil
    | cons b t2 =>
      rcases List.pairwise_cons.mp hs1 with ⟨ha1, hs1'⟩
      rcases List.pairwise_cons.mp hs2 with ⟨hb2, hs2'⟩
      have hab : a = b := by
        have hbmem : b ∈ a :: t1 := hp.symm.subset (List.mem_cons_self b t2)
        have hamem : a ∈ b :: t2 := hp.subset (List.mem_cons_self a t1)
        rcases List.mem_cons.mp hbmem with h | h
        · exact h.symm
        · rcases List.mem_cons.mp hamem with h' | h'
          · exact h'
          · exact hanti a (List.mem_cons_self a t1) b (List.mem_cons_of_mem a h)
              (hb2 a h') (ha1 b h)
      subst hab
      have hperm : t1.Perm t2 := hp.cons_inv
      rw [ih hperm hs1' hs2'
        (fun x hx y hy hxy hyx => hanti x (List.mem_cons_of_mem a hx)
          y (List.mem_cons_of_mem a hy) hxy hyx)]

/-- Claim C3 counterexample: the claim fails in both directions.  Two lists
holding the same multiset of records whose sort keys (device, left, top)
tie — same device name and origin, different extents/primary flag — produce
*different* signature strings depending on enumeration order; and two lists
with *different* record multisets — device names 'A' (65) versus wide
character 321, which narrows to the same byte — produce the *same*
signature. -/
theorem buildTopoSignature_counterexample :
    ([⟨1, ⟨0, 0, 100, 100⟩, true, [88, 0]⟩, ⟨2, ⟨0, 0, 200, 200⟩, false, [88, 0]⟩] :
        List MonitorInfo).Perm
      [⟨2, ⟨0, 0, 200, 200⟩, false, [88, 0]⟩, ⟨1, ⟨0, 0, 100, 100⟩, true, [88, 0]⟩] ∧
    buildTopoSignature
        [⟨1, ⟨0, 0, 100, 100⟩, true, [88, 0]⟩, ⟨2, ⟨0, 0, 200, 200⟩, false, [88, 0]⟩] ≠
      buildTopoSignature
        [⟨2, ⟨0, 0, 200, 200⟩, false, [88, 0]⟩, ⟨1, ⟨0, 0, 100, 100⟩, true, [88, 0]⟩] ∧
    (⟨1, ⟨0, 0, 100, 100⟩, true, [321, 0]⟩ : MonitorInfo) ≠
      ⟨1, ⟨0, 0, 100, 100⟩, true, [65, 0]⟩ ∧
    buildTopoSignature [⟨1, ⟨0, 0, 100, 100⟩, true, [321, 0]⟩] =
      buildTopoSignature [⟨1, ⟨0, 0, 100, 100⟩, true, [65, 0]⟩] :=
  ⟨List.Perm.swap _ _ _, by decide, by decide, by decide⟩

/-- Claim C3 (amended): `BuildTopoSignature` is order-independent on lists
whose records carry pairwise-distinct sort keys (device name, rect.left,
rect.top): any two such lists holding the same multiset of records produce
character-identical signatures.  With tied sort keys the enumeration order
can leak into the signature, and signature equality does not imply multiset
equality (device names are narrowed to bytes and concatenated without
escaping), so the full "complete change detector" property fails. -/
theorem buildTopoSignature_perm_invariant (l1 l2 : List MonitorInfo)
    (hp : l1.Perm l2)
    (hk : l1.Pairwise fun a b => monKey a ≠ monKey b) :
    buildTopoSignature l1 = buildTopoSignature l2 := by
  suffices h : sortMons l1 = sortMons l2 by
    unfold buildTopoSignature
    rw [h]
  have hk1 : (sortMons l1).Pairwise (fun a b => monKey a ≠ monKey b) :=
    ((sortMons_perm l1).pairwise_iff (by intro x y h he; exact h he.symm)).mpr hk
  apply sorted_perm_eq
  · exact (sortMons_perm l1).trans (hp.trans (sortMons_perm l2).symm)
  · exact sortMons_sorted l1
  · exact sortMons_sorted l2
  · intro x hx y hy hxy hyx
    exact eq_of_mem_pairwise_ne hk1 hx hy (monKey_eq_of_not_lt hxy hyx)

/-- Witness for the amended C3: two monitors with distinct device names,
enumerated in either order, give the same signature. -/
theorem buildTopoSignature_perm_invariant_witness :
    buildTopoSignature
        [⟨1, ⟨0, 0, 100, 100⟩, true, [65, 0]⟩, ⟨2, ⟨200, 0, 300, 100⟩, false, [66, 0]⟩] =
      buildTopoSignature
        [⟨2, ⟨200, 0, 300, 100⟩, false, [66, 0]⟩, ⟨1, ⟨0, 0, 100, 100⟩, true, [65, 0]⟩] :=
  buildTopoSignature_perm_invariant _ _ (List.Perm.swap _ _ _) (by decide)

/-! ### Claim C4 — earliest crossing wins, ties resolved by dominant axis -/

theorem rightCand_edge {p0 p1 : Pt} {rc : Rect} {c : HitResult}
    (h : rightCand p0 p1 rc = Option.some c) : c.edge = Edge.right := by
  obtain ⟨-, rfl, -⟩ := rightCand_some h; rfl

theorem leftCand_edge {p0 p1 : Pt} {rc : Rect} {c : HitResult}
    (h : leftCand p0 p1 rc = Option.some c) : c.edge = Edge.left := by
  obtain ⟨-, rfl, -⟩ := leftCand_some h; rfl

theorem bottomCand_edge {p0 p1 : Pt} {rc : Rect} {c : HitResult}
    (h : bottomCand p0 p1 rc = Option.some c) : c.edge = Edge.bottom := by
  obtain ⟨-, rfl, -⟩ := bottomCand_some h; rfl

theorem topCand_edge {p0 p1 : Pt} {rc : Rect} {c : HitResult}
    (h : topCand p0 p1 rc = Option.some c) : c.edge = Edge.top := by
  obtain ⟨-, rfl, -⟩ := topCand_some h; rfl

theorem acceptedCands_axis (p0 p1 : Pt) (rc : Rect)
    (hlr : rc.left < rc.right) (htb : rc.top < rc.bottom) :
    ∀ x ∈ acceptedCands p0 p1 rc, ∀ y ∈ acceptedCands p0 p1 rc,
      x.t = y.t → x ≠ y → isHoriz x.edge ≠ isHoriz y.edge := by
  intro x hx y hy ht hne
  have hx' : x ∈ candList p0 p1 rc := List.mem_of_mem_filter hx
  have hy' : y ∈ candList p0 p1 rc := List.mem_of_mem_filter hy
  have hRL : ∀ z w : HitResult, rightCand p0 p1 rc = Option.some z →
      leftCand p0 p1 rc = Option.some w → z.t ≠ w.t := by
    intro z w hz hw
    obtain ⟨hdx0, rfl, -⟩ := rightCand_some hz
    obtain ⟨-, rfl, -⟩ := leftCand_some hw
    dsimp only
    intro hcon
    have h := congrArg (fun q : ℚ => q * dxQ p0 p1) hcon
    dsimp only at h
    rw [div_mul_cancel₀ _ hdx0, div_mul_cancel₀ _ hdx0] at h
    have h2 : (rc.right : ℚ) = (rc.left : ℚ) := by linarith
    have h3 : rc.right = rc.left := by exact_mod_cast h2
    omega
  have hBT : ∀ z w : HitResult, bottomCand p0 p1 rc = Option.some z →
      topCand p0 p1 rc = Option.some w → z.t ≠ w.t := by
    intro z w hz hw
    obtain ⟨hdy0, rfl, -⟩ := bottomCand_some hz
    obtain ⟨-, rfl, -⟩ := topCand_some hw
    dsimp only
    intro hcon
    have h := congrArg (fun q : ℚ => q * dyQ p0 p1) hcon
    dsimp only at h
    rw [div_mul_cancel₀ _ hdy0, div_mul_cancel₀ _ hdy0] at h
    have h2 : (rc.bottom : ℚ) = (rc.top : ℚ) := by linarith
    have h3 : rc.bottom = rc.top := by exact_mod_cast h2
    omega
  rcases mem_candList hx' with h1 | h1 | h1 | h1
  · rcases mem_candList hy' with h2 | h2 | h2 | h2
    · rw [h1] at h2; exact absurd (Option.some.inj h2) hne
    · exact absurd ht (hRL x y h1 h2)
    · rw [rightCand_edge h1, bottomCand_edge h2]; decide
    · rw [rightCand_edge h1, topCand_edge h2]; decide
  · rcases mem_candList hy' with h2 | h2 | h2 | h2
    · exact absurd ht.symm (hRL y x h2 h1)
    · rw [h1] at h2; exact absurd (Option.some.inj h2) hne
    · rw [leftCand_edge h1, bottomCand_edge h2]; decide
    · rw [leftCand_edge h1, topCand_edge h2]; decide
  · rcases mem_candList hy' with h2 | h2 | h2 | h2
    · rw [bottomCand_edge h1, rightCand_edge h2]; decide
    · rw [bottomCand_edge h1, leftCand_edge h2]; decide
    · rw [h1] at h2; exact absurd (Option.some.inj h2) hne
    · exact absurd ht (hBT x y h1 h2)
  · rcases mem_candList hy' with h2 | h2 | h2 | h2
    · rw [topCand_edge h1, rightCand_edge h2]; decide
    · rw [topCand_edge h1, leftCand_edge h2]; decide
    · exact absurd ht.symm (hBT y x h2 h1)
    · rw [h1] at h2; exact absurd (Option.some.inj h2) hne

theorem invC4_step (dx dy : ℚ) (A : List HitResult) (b c : HitResult)
    (hInv : InvC4 dx dy A b)
    (hacc : acceptOK dx dy c = true)
    (hsep : ∀ x ∈ A, x.t = c.t ∨ 2 * eps ≤ |x.t - c.t|)
    (haxis : ∀ x ∈ A, x.t = c.t → x ≠ c → isHoriz x.edge ≠ isHoriz c.edge) :
    InvC4 dx dy (A ++ [c]) (tryEdge dx dy c b) := by
  rw [tryEdge_of_accept dx dy c b hacc]
  rcases hInv with ⟨rfl, rfl⟩ | ⟨hbmem, hmin, htie⟩
  · -- nothing accepted yet: the candidate replaces the sentinel
    have hct : c.t ≤ 1 := ((acceptOK_iff dx dy c).mp hacc).1.2
    rw [if_pos (show c.t < noHit.t - eps by
      have h2 : noHit.t = 2 := rfl
      rw [h2]
      linarith [eps_lt_one])]
    right
    refine ⟨by simp, ?_, ?_⟩
    · intro c' hc'
      simp only [List.nil_append, List.mem_singleton] at hc'
      subst hc'
      exact le_rfl
    · intro c' hc' _ hne'
      simp only [List.nil_append, List.mem_singleton] at hc'
      exact absurd hc' hne'
  · rcases hsep b hbmem with heq | hsep2
    · -- exact tie with the current best
      have heq' : c.t = b.t := heq.symm
      have hnotlt : ¬ c.t < b.t - eps := by
        intro hcon
        rw [heq] at hcon
        linarith [eps_pos]
      have htieq : |c.t - b.t| < eps := by
        rw [← heq', sub_self, abs_zero]
        exact eps_pos
      rw [if_neg hnotlt, if_pos htieq]
      by_cases hcb : c = b
      · subst hcb
        have hsimp : (if isHoriz c.edge = true then (if |dy| ≤ |dx| then c else c)
            else (if |dx| < |dy| then c else c)) = c := by split_ifs <;> rfl
        rw [hsimp]
        right
        refine ⟨List.mem_append_right _ (List.mem_singleton_self c), ?_, ?_⟩
        · intro c' hc'
          rcases List.mem_append.mp hc' with h | h
          · exact hmin c' h
          · rw [List.mem_singleton.mp h]
        · intro c' hc' ht' hne'
          rcases List.mem_append.mp hc' with h | h
          · exact htie c' h ht' hne'
          · exact absurd (List.mem_singleton.mp h) hne'
      · have haxbc : isHoriz b.edge ≠ isHoriz c.edge :=
          haxis b hbmem heq (fun h => hcb h.symm)
        by_cases hhc : isHoriz c.edge = true
        · rw [if_pos hhc]
          by_cases hd : |dy| ≤ |dx|
          · rw [if_pos hd]
            right
            refine ⟨List.mem_append_right _ (List.mem_singleton_self c), ?_, ?_⟩
            · intro c' hc'
              rcases List.mem_append.mp hc' with h | h
              · rw [heq']
                exact hmin c' h
              · rw [List.mem_singleton.mp h]
            · intro c' hc' ht' hne'
              simp [hhc, hd]
          · rw [if_neg hd]
            right
            refine ⟨List.mem_append_left _ hbmem, ?_, ?_⟩
            · intro c' hc'
              rcases List.mem_append.mp hc' with h | h
              · exact hmin c' h
              · rw [List.mem_singleton.mp h, ← heq']
            · intro c' hc' ht' hne'
              have hb' : isHoriz b.edge ≠ true := fun h => haxbc (h.trans hhc.symm)
              exact ⟨fun h => absurd h hb', fun h => absurd h hd⟩
        · rw [if_neg hhc]
          by_cases hd : |dx| < |dy|
          · rw [if_pos hd]
            right
            refine ⟨List.mem_append_right _ (List.mem_singleton_self c), ?_, ?_⟩
            · intro c' hc'
              rcases List.mem_append.mp hc' with h | h
              · rw [heq']
                exact hmin c' h
              · rw [List.mem_singleton.mp h]
            · intro c' hc' ht' hne'
              exact ⟨fun h => absurd h hhc, fun h => absurd h (not_le.mpr hd)⟩
          · rw [if_neg hd]
            right
            refine ⟨List.mem_append_left _ hbmem, ?_, ?_⟩
            · intro c' hc'
              rcases List.mem_append.mp hc' with h | h
              · exact hmin c' h
              · rw [List.mem_singleton.mp h, ← heq']
            · intro c' hc' ht' hne'
              have hb' : isHoriz b.edge = true := by
                rcases Bool.eq_false_or_eq_true (isHoriz b.edge) with h | h
                · exact h
                · exact absurd (h.trans (Bool.eq_false_iff.mpr hhc).symm) haxbc
              exact ⟨fun _ => not_lt.mp hd, fun _ => hb'⟩
    · -- well separated from the current best
      have hne_t : c.t ≠ b.t := by
        intro h
        rw [h, sub_self, abs_zero] at hsep2
        linarith [eps_pos]
      rcases lt_or_gt_of_ne hne_t with hlt | hgt
      · have hlt' : c.t < b.t - eps := by
          rw [abs_of_nonneg (by linarith : (0 : ℚ) ≤ b.t - c.t)] at hsep2
          linarith [eps_pos]
        rw [if_pos hlt']
        right
        refine ⟨List.mem_append_right _ (List.mem_singleton_self c), ?_, ?_⟩
        · intro c' hc'
          rcases List.mem_append.mp hc' with h | h
          · have := hmin c' h
            linarith [eps_pos]
          · rw [List.mem_singleton.mp h]
        · intro c' hc' ht' hne'
          exfalso
          rcases List.mem_append.mp hc' with h | h
          · have := hmin c' h
            rw [ht'] at this
            linarith [eps_pos]
          · exact hne' (List.mem_singleton.mp h)
      · have h1 : ¬ c.t < b.t - eps := by
          intro hcon
          linarith [eps_pos]
        have h2 : ¬ |c.t - b.t| < eps := by
          rw [abs_of_nonneg (by linarith : (0 : ℚ) ≤ c.t - b.t)]
          rw [abs_of_nonpos (by linarith : b.t - c.t ≤ 0)] at hsep2
          intro hcon
          have h3 : -(b.t - c.t) = c.t - b.t := by ring
          rw [h3] at hsep2
          linarith [eps_pos]
        rw [if_neg h1, if_neg h2]
        right
        refine ⟨List.mem_append_left _ hbmem, ?_, ?_⟩
        · intro c' hc'
          rcases List.mem_append.mp hc' with h | h
          · exact hmin c' h
          · rw [List.mem_singleton.mp h]
            linarith
        · intro c' hc' ht' hne'
          rcases List.mem_append.mp hc' with h | h
          · exact htie c' h ht' hne'
          · exfalso
            rw [List.mem_singleton.mp h] at ht'
            exact hne_t ht'

theorem foldl_invC4 (dx dy : ℚ) :
    ∀ (L A : List HitResult) (b : HitResult),
      InvC4 dx dy A b →
      (∀ x ∈ A ++ L.filter (acceptOK dx dy), ∀ y ∈ A ++ L.filter (acceptOK dx dy),
        x.t = y.t ∨ 2 * eps ≤ |x.t - y.t|) →
      (∀ x ∈ A ++ L.filter (acceptOK dx dy), ∀ y ∈ A ++ L.filter (acceptOK dx dy),
        x.t = y.t → x ≠ y → isHoriz x.edge ≠ isHoriz y.edge) →
      InvC4 dx dy (A ++ L.filter (acceptOK dx dy))
        (L.foldl (fun b c => tryEdge dx dy c b) b) := by
  intro L
  induction L with
  | nil =>
    intro A b hInv _ _
    simpa using hInv
  | cons c L ih =>
    intro A b hInv hsep haxis
    simp only [List.foldl_cons]
    by_cases hacc : acceptOK dx dy c = true
    · have hfil : (c :: L).filter (acceptOK dx dy) = c :: L.filter (acceptOK dx dy) := by
        simp [List.filter_cons, hacc]
      rw [hfil] at hsep haxis
      have hmemc : c ∈ A ++ (c :: L.filter (acceptOK dx dy)) :=
        List.mem_append_right _ (List.mem_cons_self _ _)
      have hlist : A ++ (c :: L.filter (acceptOK dx dy)) =
          (A ++ [c]) ++ L.filter (acceptOK dx dy) := by simp
      have hstep : InvC4 dx dy (A ++ [c]) (tryEdge dx dy c b) := by
        apply invC4_step dx dy A b c hInv hacc
        · intro x hx
          exact hsep x (List.mem_append_left _ hx) c hmemc
        · intro x hx hxt hxc
          exact haxis x (List.mem_append_left _ hx) c hmemc hxt hxc
      rw [hlist] at hsep haxis
      rw [hfil, hlist]
      exact ih (A ++ [c]) (tryEdge dx dy c b) hstep hsep haxis
    · have hfil : (c :: L).filter (acceptOK dx dy) = L.filter (acceptOK dx dy) := by
        simp [List.filter_cons, hacc]
      rw [hfil] at hsep haxis
      rw [hfil]
      rw [tryEdge_of_reject dx dy c b (Bool.eq_false_iff.mpr hacc)]
      exact ih A b hInv hsep haxis

theorem findExitEdge_earliest (p0 p1 : Pt) (rc : Rect)
    (hlr : rc.left < rc.right) (htb : rc.top < rc.bottom)
    (hsep : ∀ x ∈ acceptedCands p0 p1 rc, ∀ y ∈ acceptedCands p0 p1 rc,
      x.t = y.t ∨ 2 * eps ≤ |x.t - y.t|)
    (hne : acceptedCands p0 p1 rc ≠ []) :
    FindExitEdge p0 p1 rc ∈ acceptedCands p0 p1 rc ∧
    (∀ c ∈ acceptedCands p0 p1 rc, (FindExitEdge p0 p1 rc).t ≤ c.t) ∧
    (∀ c ∈ acceptedCands p0 p1 rc, c.t = (FindExitEdge p0 p1 rc).t →
      c ≠ FindExitEdge p0 p1 rc →
      (isHoriz (FindExitEdge p0 p1 rc).edge = true ↔ |dyQ p0 p1| ≤ |dxQ p0 p1|)) := by
  have haxis := acceptedCands_axis p0 p1 rc hlr htb
  have hres := foldl_invC4 (dxQ p0 p1) (dyQ p0 p1) (candList p0 p1 rc) [] noHit
    (Or.inl ⟨rfl, rfl⟩)
    (by
      intro x hx y hy
      rw [List.nil_append] at hx hy
      exact hsep x hx y hy)
    (by
      intro x hx y hy
      rw [List.nil_append] at hx hy
      exact haxis x hx y hy)
  rw [List.nil_append] at hres
  rcases hres with ⟨hnil, -⟩ | ⟨h1, h2, h3⟩
  · exact absurd hnil hne
  · exact ⟨h1, h2, h3⟩

/-- Claim C4: among all accepted boundary candidates `FindExitEdge` returns
the one with the smallest segment parameter `t` (stated for inputs whose
accepted candidates are pairwise either exactly tied or separated by at
least twice the tolerance, so that the epsilon comparisons are
unambiguous); at an exact tie the kept candidate is a Left/Right edge
exactly when `|dx| >= |dy|` (a Top/Bottom edge only when `|dy| > |dx|`
strictly); and the exact diagonal tie of the segment (95,95)→(105,105)
against rectangle (0,0,100,100) deterministically resolves to the Right
edge. -/
theorem findExitEdge_min_tiebreak :
    (∀ (p0 p1 : Pt) (rc : Rect), rc.left < rc.right → rc.top < rc.bottom →
      (∀ x ∈ acceptedCands p0 p1 rc, ∀ y ∈ acceptedCands p0 p1 rc,
        x.t = y.t ∨ 2 * eps ≤ |x.t - y.t|) →
      acceptedCands p0 p1 rc ≠ [] →
      FindExitEdge p0 p1 rc ∈ acceptedCands p0 p1 rc ∧
      (∀ c ∈ acceptedCands p0 p1 rc, (FindExitEdge p0 p1 rc).t ≤ c.t) ∧
      (∀ c ∈ acceptedCands p0 p1 rc, c.t = (FindExitEdge p0 p1 rc).t →
        c ≠ FindExitEdge p0 p1 rc →
        (isHoriz (FindExitEdge p0 p1 rc).edge = true ↔ |dyQ p0 p1| ≤ |dxQ p0 p1|))) ∧
    FindExitEdge ⟨95, 95⟩ ⟨105, 105⟩ ⟨0, 0, 100, 100⟩ = ⟨Edge.right, 1 / 2, 100⟩ :=
  ⟨findExitEdge_earliest, by decide⟩

/-- Witness for C4, at the diagonal-tie input: the result is the Right
edge, it is an accepted candidate, and its `t` is minimal among the
accepted candidates. -/
theorem findExitEdge_min_tiebreak_witness :
    (FindExitEdge ⟨95, 95⟩ ⟨105, 105⟩ ⟨0, 0, 100, 100⟩).edge = Edge.right ∧
    FindExitEdge ⟨95, 95⟩ ⟨105, 105⟩ ⟨0, 0, 100, 100⟩ ∈
      acceptedCands ⟨95, 95⟩ ⟨105, 105⟩ ⟨0, 0, 100, 100⟩ ∧
    ∀ c ∈ acceptedCands ⟨95, 95⟩ ⟨105, 105⟩ ⟨0, 0, 100, 100⟩,
      (FindExitEdge ⟨95, 95⟩ ⟨105, 105⟩ ⟨0, 0, 100, 100⟩).t ≤ c.t :=
  ⟨by rw [findExitEdge_min_tiebreak.2],
   (findExitEdge_min_tiebreak.1 ⟨95, 95⟩ ⟨105, 105⟩ ⟨0, 0, 100, 100⟩ (by decide) (by decide)
      (by decide) (by decide)).1,
   (findExitEdge_min_tiebreak.1 ⟨95, 95⟩ ⟨105, 105⟩ ⟨0, 0, 100, 100⟩ (by decide) (by decide)
      (by decide) (by decide)).2.1⟩
